import Mathlib

/-!
Verification of the zoxide database engine (`src/db/mod.rs`) against its
specification.  The Rust code is shallowly embedded: the in-memory registry
is a list of records plus a `modified` flag, `f32` ranks are modelled as
exact rationals, and the fallible filesystem operations of `save`, `persist`
and `DatabaseFile::open` are modelled by passing their outcomes in
explicitly and recording the attempted side effects in a trace.
-/

/-- A directory record (`Dir` as used by `db/mod.rs`): an opaque path, a rank
(`f32` in the source, modelled as an exact rational) and the last-accessed
epoch (`u64` seconds). -/
structure Dir where
  path : String
  rank : ℚ
  last_accessed : ℕ
deriving DecidableEq

/-- The in-memory database: the record list `dirs` and the `modified` flag
(`struct Database` in `db/mod.rs`; the borrowed `data_dir` is passed to the
persistence operations separately). -/
structure Database where
  dirs : List Dir
  modified : Bool
deriving DecidableEq

/-- Embedding of `Vec::swap_remove(idx)`: overwrite position `idx` with the last element
and pop the end.  (For `idx` the last position this is a plain pop.) -/
def swapRemove (l : List α) (idx : ℕ) : List α :=
  match l.getLast? with
  | none => l
  | some last => (l.set idx last).dropLast

/-- Embedding of `Database::add`: bump the first record whose path matches exactly
(`last_accessed := now`, `rank += 1.0`), or append a fresh record with rank
`1.0`; always set `modified`. -/
def Database.add (db : Database) (path : String) (now : ℕ) : Database :=
  let dirs :=
    match db.dirs.findIdx? (fun dir => dir.path == path) with
    | none => db.dirs ++ [⟨path, 1, now⟩]
    | some idx =>
      match db.dirs[idx]? with
      | none => db.dirs
      | some dir => db.dirs.set idx { dir with last_accessed := now, rank := dir.rank + 1 }
  { dirs := dirs, modified := true }

/-- Embedding of `Database::remove`: swap-remove the first record whose path matches
exactly; set `modified` iff one was removed, and return whether one was. -/
def Database.remove (db : Database) (path : String) : Database × Bool :=
  match db.dirs.findIdx? (fun dir => dir.path == path) with
  | some idx => ({ dirs := swapRemove db.dirs idx, modified := true }, true)
  | none => (db, false)

/-- The merge of `dedup`: fold `curr_dir`'s rank and last-accessed time into
`next_dir` (the record at the lower index). -/
def mergeDirs (next curr : Dir) : Dir :=
  { next with last_accessed := max next.last_accessed curr.last_accessed,
              rank := next.rank + curr.rank }

/-- The loop of `Database::dedup`, running `idx` from `len - 1` down to `1`:
if the records at `idx` and `idx - 1` share a path, merge position `idx`
into position `idx - 1`, swap-remove position `idx` and set `modified`. -/
def dedupLoop : Database → ℕ → Database
  | db, 0 => db
  | db, idx + 1 =>
    match db.dirs[idx + 1]?, db.dirs[idx]? with
    | some curr, some next =>
      if next.path == curr.path then
        dedupLoop
          { dirs := swapRemove (db.dirs.set idx (mergeDirs next curr)) (idx + 1),
            modified := true }
          idx
      else dedupLoop db idx
    | _, _ => dedupLoop db idx

/-- The comparator of `dedup`'s sort: `dir1.path.cmp(&dir2.path)`. -/
def dirLE (dir1 dir2 : Dir) : Prop := dir1.path ≤ dir2.path

instance : DecidableRel dirLE := fun dir1 dir2 =>
  inferInstanceAs (Decidable (dir1.path ≤ dir2.path))

instance : IsTotal Dir dirLE := ⟨fun dir1 dir2 => le_total dir1.path dir2.path⟩

instance : IsTrans Dir dirLE := ⟨fun _ _ _ => le_trans⟩

/-- Embedding of `Database::dedup`: stable-sort the records by path (without touching
`modified`), then run the backwards merge loop.  `Vec::sort_by` is a stable
sort; it is embedded as the (stable) insertion sort. -/
def Database.dedup (db : Database) : Database :=
  let sorted : Database := { db with dirs := db.dirs.insertionSort dirLE }
  dedupLoop sorted (sorted.dirs.length - 1)

/-- Rank scaling inside `age`: `dir.rank *= factor`. -/
def scaleDir (factor : ℚ) (dir : Dir) : Dir := { dir with rank := dir.rank * factor }

/-- The loop of `Database::age`, running `idx` from `len - 1` down to `0`:
scale the rank at `idx` and swap-remove the record if the result is `< 1.0`. -/
def ageLoop (factor : ℚ) : List Dir → ℕ → List Dir
  | dirs, 0 => dirs
  | dirs, idx + 1 =>
    match dirs[idx]? with
    | none => ageLoop factor dirs idx
    | some dir =>
      let scaled := scaleDir factor dir
      if scaled.rank < 1 then ageLoop factor (swapRemove (dirs.set idx scaled) idx) idx
      else ageLoop factor (dirs.set idx scaled) idx

/-- Embedding of `Database::age(max_age)`: if the rank sum exceeds `max_age`, scale every
rank by `0.9 * max_age / sum` dropping records that fall below `1.0`, and
set `modified`; otherwise do nothing. -/
def Database.age (db : Database) (max_age : ℚ) : Database :=
  let sum_age : ℚ := (db.dirs.map (fun dir => dir.rank)).sum
  if sum_age > max_age then
    { dirs := ageLoop (0.9 * max_age / sum_age) db.dirs db.dirs.length,
      modified := true }
  else db

/-- The mutating registry operations, for reasoning about arbitrary
sequences of them. -/
inductive Op where
  | add (path : String) (now : ℕ)
  | remove (path : String)
  | dedup
  | age (max_age : ℚ)

/-- Apply one registry operation. -/
def applyOp (db : Database) : Op → Database
  | Op.add path now => db.add path now
  | Op.remove path => (db.remove path).1
  | Op.dedup => db.dedup
  | Op.age max_age => db.age max_age

/-- Apply a sequence of registry operations from left to right. -/
def applyOps (db : Database) (ops : List Op) : Database := ops.foldl applyOp db

/-- Outcome of one `file.persist(&path)` (rename) attempt, supplied by the
environment. -/
inductive PersistOutcome where
  | persisted
  | permissionDenied
  | otherError (msg : String)

/-- The retry loop of the Windows `persist`: at most `MAX_TRIES = 10`
attempts; a success breaks out, a `PermissionDenied` error sleeps 50–150 ms
and retries, any other error returns immediately.  When the fuel runs out
the loop falls through to `Ok(())`. -/
def persistTries (outcome : ℕ → PersistOutcome) (attempt : ℕ) : ℕ → Except String Unit
  | 0 => Except.ok ()
  | tries + 1 =>
    match outcome attempt with
    | PersistOutcome.persisted => Except.ok ()
    | PersistOutcome.permissionDenied => persistTries outcome (attempt + 1) tries
    | PersistOutcome.otherError msg => Except.error msg

/-- Embedding of `persist` (Windows variant), with the outcome of the `i`-th rename
attempt supplied by `outcome i`. -/
def persist (outcome : ℕ → PersistOutcome) : Except String Unit :=
  persistTries outcome 0 10

/-- Embedding of `data_dir.join("db.zo")`. -/
def dbPath (dataDir : String) : String := dataDir ++ "/db.zo"

/-- Side effects attempted by `Database::save`, in order. -/
inductive SaveEffect where
  | encode
  | createTempFile
  | writeTempFile
  | renameOverDb
deriving DecidableEq

/-- Errors surfaced by `Database::save`, annotated with the offending path
as in the source's `with_context` calls. -/
inductive SaveError where
  | notEncodable
  | tempFileFailed (dataDir : String)
  | writeFailed
  | replaceFailed (dbPath : String) (msg : String)
deriving DecidableEq

/-- Outcomes of the fallible filesystem steps inside `save`, supplied by the
environment (the best-effort `set_len` preallocation is ignored on failure
and has no observable outcome). -/
structure SaveEnv where
  encodeOk : Bool
  tempFileOk : Bool
  writeOk : Bool
  renameOutcome : ℕ → PersistOutcome

/-- Embedding of `Database::save`: a no-op returning `Ok` when `modified` is unset;
otherwise encode, create a temp file in `data_dir`, write the buffer, and
`persist` the temp file over `data_dir/db.zo`, clearing `modified` on
success.  The list records which steps were attempted. -/
def Database.save (db : Database) (dataDir : String) (env : SaveEnv) :
    Except SaveError Database × List SaveEffect :=
  if db.modified = false then (Except.ok db, [])
  else if env.encodeOk = false then
    (Except.error SaveError.notEncodable, [SaveEffect.encode])
  else if env.tempFileOk = false then
    (Except.error (SaveError.tempFileFailed dataDir),
      [SaveEffect.encode, SaveEffect.createTempFile])
  else if env.writeOk = false then
    (Except.error SaveError.writeFailed,
      [SaveEffect.encode, SaveEffect.createTempFile, SaveEffect.writeTempFile])
  else
    match persist env.renameOutcome with
    | Except.ok _ =>
      (Except.ok { db with modified := false },
        [SaveEffect.encode, SaveEffect.createTempFile, SaveEffect.writeTempFile,
          SaveEffect.renameOverDb])
    | Except.error msg =>
      (Except.error (SaveError.replaceFailed (dbPath dataDir) msg),
        [SaveEffect.encode, SaveEffect.createTempFile, SaveEffect.writeTempFile,
          SaveEffect.renameOverDb])

/-- Embedding of `Drop for Database`: run `save`, pretty-printing and swallowing any
error; only the attempted side effects remain observable. -/
def Database.release (db : Database) (dataDir : String) (env : SaveEnv) : List SaveEffect :=
  (db.save dataDir env).2

/-- Outcome of `fs::read(data_dir/db.zo)` together with the outcomes of the
steps that follow it: on a successful read, the result of decoding the
buffer (`DirList::from_bytes`, abstracted to its outcome); on `NotFound`,
whether `fs::create_dir_all(data_dir)` succeeds. -/
inductive ReadResult where
  | ok (decoded : Except String (List Dir))
  | notFound (mkdirOk : Bool)
  | otherError (msg : String)

/-- Errors surfaced by `DatabaseFile::open`, annotated with the offending
path as in the source's `with_context` calls. -/
inductive OpenError where
  | corrupt (dbPath : String) (msg : String)
  | createDirFailed (dataDir : String)
  | notReadable (dbPath : String) (msg : String)
deriving DecidableEq

/-- Filesystem side effects attempted by `DatabaseFile::open`. -/
inductive OpenEffect where
  | createDataDir
  | createDbFile
deriving DecidableEq

/-- Embedding of `DatabaseFile::open`: read `data_dir/db.zo` and decode it; a `NotFound`
read error means "empty database" (create `data_dir` recursively, create no
file); any other read error is annotated with the database path. -/
def openDatabase (dataDir : String) (read : ReadResult) :
    Except OpenError Database × List OpenEffect :=
  match read with
  | ReadResult.ok (Except.ok dirs) =>
    (Except.ok { dirs := dirs, modified := false }, [])
  | ReadResult.ok (Except.error msg) =>
    (Except.error (OpenError.corrupt (dbPath dataDir) msg), [])
  | ReadResult.notFound true =>
    (Except.ok { dirs := [], modified := false }, [OpenEffect.createDataDir])
  | ReadResult.notFound false =>
    (Except.error (OpenError.createDirFailed dataDir), [OpenEffect.createDataDir])
  | ReadResult.otherError msg =>
    (Except.error (OpenError.notReadable (dbPath dataDir) msg), [])

/-- The rank sum of a record list. -/
def totalRankSum (l : List Dir) : ℚ := (l.map Dir.rank).sum

/-- The records of `l` whose path is exactly `p`. -/
def groupOf (p : String) (l : List Dir) : List Dir := l.filter (fun dir => dir.path == p)

/-- The rank sum of the records of `l` with path `p`. -/
def groupRankSum (p : String) (l : List Dir) : ℚ := ((groupOf p l).map Dir.rank).sum

/-- The largest last-accessed time among the records of `l` with path `p`
(`0` when there are none). -/
def groupLastMax (p : String) (l : List Dir) : ℕ :=
  ((groupOf p l).map Dir.last_accessed).foldr max 0

/-- The survivor predicate of `age`: the scaled rank did not fall below 1. -/
def ageKeep (dir : Dir) : Bool := !decide (dir.rank < 1)

/-! ### Save and open -/

theorem save_of_not_modified (db : Database) (dataDir : String) (env : SaveEnv)
    (h : db.modified = false) : db.save dataDir env = (Except.ok db, []) := by
  simp [Database.save, h]

theorem save_ok_clears_modified (db : Database) (dataDir : String) (env : SaveEnv)
    (db' : Database) (h : (db.save dataDir env).1 = Except.ok db') :
    db'.modified = false := by
  obtain ⟨dirs, m⟩ := db
  obtain ⟨e, t, w, r⟩ := env
  cases m
  · simp [Database.save] at h
    rw [← h]
  · cases e
    · simp [Database.save] at h
    · cases t
      · simp [Database.save] at h
      · cases w
        · simp [Database.save] at h
        · cases hp : persist r with
          | ok u =>
            simp [Database.save, hp] at h
            rw [← h]
          | error msg =>
            simp [Database.save, hp] at h

/-- C8: when `modified` is false, `save` succeeds immediately without
encoding, creating a temporary file, writing, or touching the on-disk
database (empty effect trace); and every `save` that returns success leaves
the returned session's `modified` flag cleared. -/
theorem save_frame (db : Database) (dataDir : String) (env : SaveEnv) :
    (db.modified = false → db.save dataDir env = (Except.ok db, [])) ∧
    (∀ db', (db.save dataDir env).1 = Except.ok db' → db'.modified = false) :=
  ⟨save_of_not_modified db dataDir env, save_ok_clears_modified db dataDir env⟩

theorem save_frame_witness :
    (Database.mk [⟨"a", 1, 0⟩] false).save "data"
        ⟨true, true, true, fun _ => PersistOutcome.persisted⟩ =
      (Except.ok (Database.mk [⟨"a", 1, 0⟩] false), []) ∧
    (Database.mk [⟨"a", 1, 0⟩] false).modified = false :=
  ⟨(save_frame (Database.mk [⟨"a", 1, 0⟩] false) "data"
      ⟨true, true, true, fun _ => PersistOutcome.persisted⟩).1 rfl,
   (save_frame (Database.mk [⟨"a", 1, 0⟩] true) "data"
      ⟨true, true, true, fun _ => PersistOutcome.persisted⟩).2
      (Database.mk [⟨"a", 1, 0⟩] false) rfl⟩

/-- C1 (code bug): the Windows `persist` loop retries only on
`PermissionDenied` and returns any other error immediately, but when all
`MAX_TRIES = 10` attempts fail with `PermissionDenied` it falls through to
`Ok(())`: `save` then reports success and clears `modified` although the
database file was never replaced, so the failure is not propagated. -/
theorem persist_exhausts_retries_ok :
    persist (fun _ => PersistOutcome.permissionDenied) = Except.ok () ∧
    persist (fun _ => PersistOutcome.otherError "disk error") =
      Except.error "disk error" ∧
    (Database.mk [⟨"a", 1, 0⟩] true).save "data"
        ⟨true, true, true, fun _ => PersistOutcome.permissionDenied⟩ =
      (Except.ok (Database.mk [⟨"a", 1, 0⟩] false),
        [SaveEffect.encode, SaveEffect.createTempFile, SaveEffect.writeTempFile,
          SaveEffect.renameOverDb]) :=
  ⟨rfl, rfl, rfl⟩

/-- C9: a not-found read is not an error: `open` creates the data directory
(recursively), returns an empty unmodified registry, and does not create
the database file; any other read error is reported annotated with the
database path. -/
theorem open_not_found_spec (dataDir : String) :
    openDatabase dataDir (ReadResult.notFound true) =
      (Except.ok (Database.mk [] false), [OpenEffect.createDataDir]) ∧
    (∀ msg, (openDatabase dataDir (ReadResult.otherError msg)).1 =
      Except.error (OpenError.notReadable (dbPath dataDir) msg)) :=
  ⟨rfl, fun _ => rfl⟩

/-- C10: every session returned by a successful `open` has `modified`
unset — whether or not the database file existed — so an immediate `save`,
explicit or on release, performs no filesystem work at all. -/
theorem open_session_unmodified (dataDir : String) (read : ReadResult)
    (db : Database) (effects : List OpenEffect)
    (h : openDatabase dataDir read = (Except.ok db, effects)) :
    db.modified = false ∧
    (∀ dataDir2 env, db.save dataDir2 env = (Except.ok db, [])) ∧
    (∀ dataDir2 env, db.release dataDir2 env = []) := by
  have hm : db.modified = false := by
    cases read with
    | ok decoded =>
      cases decoded with
      | ok dirs =>
        simp [openDatabase] at h
        rw [← h.1]
      | error msg => simp [openDatabase] at h
    | notFound mkdirOk =>
      cases mkdirOk
      · simp [openDatabase] at h
      · simp [openDatabase] at h
        rw [← h.1]
    | otherError msg => simp [openDatabase] at h
  refine ⟨hm, fun dataDir2 env => save_of_not_modified db dataDir2 env hm,
    fun dataDir2 env => ?_⟩
  simp [Database.release, save_of_not_modified db dataDir2 env hm]

theorem open_session_unmodified_witness :
    (Database.mk [] false).modified = false ∧
    (Database.mk [] false).release "data"
      ⟨true, true, true, fun _ => PersistOutcome.persisted⟩ = [] :=
  ⟨(open_session_unmodified "data" (ReadResult.notFound true) (Database.mk [] false)
      [OpenEffect.createDataDir] rfl).1,
   (open_session_unmodified "data" (ReadResult.notFound true) (Database.mk [] false)
      [OpenEffect.createDataDir] rfl).2.2 "data"
      ⟨true, true, true, fun _ => PersistOutcome.persisted⟩⟩

/-! ### List helpers for `swap_remove` -/

/-- The tail left beyond position `|A|` after `swap_remove` at `|A|` of
`A ++ x :: B`: the old last element followed by `B` without its last. -/
def tailSwap (x : α) (B : List α) : List α :=
  (((x :: B).getLast (List.cons_ne_nil x B)) :: B).dropLast

theorem tailSwap_perm (x : α) (B : List α) : (tailSwap x B).Perm B := by
  unfold tailSwap
  cases B with
  | nil => simp
  | cons b bs =>
    rw [List.getLast_cons (List.cons_ne_nil b bs), List.dropLast_cons₂]
    have h2 : (b :: bs).dropLast ++ [(b :: bs).getLast (List.cons_ne_nil b bs)] = b :: bs :=
      List.dropLast_append_getLast (List.cons_ne_nil b bs)
    conv_rhs => rw [← h2]
    exact (List.perm_append_singleton _ _).symm

theorem set_append_length (A : List α) (y : α) (Z : List α) (v : α) :
    (A ++ y :: Z).set A.length v = A ++ v :: Z := by
  rw [List.set_append]
  simp

theorem swapRemove_append_cons (A : List α) (x : α) (B : List α) :
    swapRemove (A ++ x :: B) A.length = A ++ tailSwap x B := by
  have h1 : (A ++ x :: B).getLast? = some ((x :: B).getLast (List.cons_ne_nil x B)) := by
    rw [List.getLast?_append_cons, List.getLast?_eq_getLast (x :: B) (List.cons_ne_nil x B)]
  unfold swapRemove
  rw [h1]
  show ((A ++ x :: B).set A.length ((x :: B).getLast (List.cons_ne_nil x B))).dropLast
      = A ++ tailSwap x B
  rw [set_append_length, List.dropLast_append_cons]
  rfl

theorem getElem?_decomp {l : List α} {n : ℕ} {x : α} (h : l[n]? = some x) :
    l = l.take n ++ x :: l.drop (n + 1) ∧ (l.take n).length = n := by
  obtain ⟨hlt, hx⟩ := List.getElem?_eq_some.mp h
  constructor
  · conv_lhs => rw [← List.take_append_drop n l]
    rw [List.drop_eq_getElem_cons hlt, hx]
  · rw [List.length_take]
    exact Nat.min_eq_left hlt.le

theorem swapRemove_perm_append {A : List α} {x : α} {B : List α} {n : ℕ}
    (hn : n = A.length) : (swapRemove (A ++ x :: B) n).Perm (A ++ B) := by
  subst hn
  rw [swapRemove_append_cons]
  exact List.Perm.append_left _ (tailSwap_perm _ _)

theorem swapRemove_perm_eraseIdx {l : List α} {n : ℕ} {x : α} (h : l[n]? = some x) :
    (swapRemove l n).Perm (l.take n ++ l.drop (n + 1)) := by
  obtain ⟨hdec, hlen⟩ := getElem?_decomp h
  conv_lhs => rw [hdec]
  exact swapRemove_perm_append hlen.symm

/-! ### `add` (C6) -/

/-- C6: `add` always sets `modified`; when no record has the given path it
appends a fresh record with rank `1` and the given time, and when one does,
the first such record is updated in place with `last_accessed := now` and
`rank += 1`. -/
theorem add_spec (db : Database) (path : String) (now : ℕ) :
    (db.add path now).modified = true ∧
    ((∀ d ∈ db.dirs, d.path ≠ path) →
      (db.add path now).dirs = db.dirs ++ [⟨path, 1, now⟩]) ∧
    ((∃ d ∈ db.dirs, d.path = path) →
      ∃ idx dir, db.dirs[idx]? = some dir ∧ dir.path = path ∧
        (∀ j, j < idx → ∀ d, db.dirs[j]? = some d → d.path ≠ path) ∧
        (db.add path now).dirs =
          db.dirs.set idx { dir with last_accessed := now, rank := dir.rank + 1 }) := by
  refine ⟨rfl, ?_, ?_⟩
  · intro hall
    have hfind : db.dirs.findIdx? (fun dir => dir.path == path) = none :=
      List.findIdx?_eq_none_iff.mpr (fun d hd => by simp [hall d hd])
    simp [Database.add, hfind]
  · intro hex
    have hsome : (db.dirs.findIdx? (fun dir => dir.path == path)).isSome := by
      rw [List.findIdx?_isSome, List.any_eq_true]
      obtain ⟨d, hd, hp⟩ := hex
      exact ⟨d, hd, by simp [hp]⟩
    obtain ⟨idx, hfind⟩ := Option.isSome_iff_exists.mp hsome
    obtain ⟨hlt, hp, hearlier⟩ := List.findIdx?_eq_some_iff_getElem.mp hfind
    refine ⟨idx, db.dirs[idx], List.getElem?_eq_getElem hlt, by simpa using hp, ?_, ?_⟩
    · intro j hj d hd
      obtain ⟨hjlt, hjx⟩ := List.getElem?_eq_some.mp hd
      have hne := hearlier j hj
      rw [hjx] at hne
      simpa using hne
    · simp [Database.add, hfind, List.getElem?_eq_getElem hlt]

theorem add_spec_witness :
    (∀ d ∈ (Database.mk [⟨"a", 1, 5⟩] false).dirs, d.path ≠ "b") ∧
    ((Database.mk [⟨"a", 1, 5⟩] false).add "b" 7).dirs =
      (Database.mk [⟨"a", 1, 5⟩] false).dirs ++ [⟨"b", 1, 7⟩] ∧
    ((Database.mk [⟨"a", 1, 5⟩] false).add "a" 9).modified = true ∧
    (∃ idx dir, (Database.mk [⟨"a", 1, 5⟩] false).dirs[idx]? = some dir ∧ dir.path = "a" ∧
      (∀ j, j < idx → ∀ d, (Database.mk [⟨"a", 1, 5⟩] false).dirs[j]? = some d →
        d.path ≠ "a") ∧
      ((Database.mk [⟨"a", 1, 5⟩] false).add "a" 9).dirs =
        (Database.mk [⟨"a", 1, 5⟩] false).dirs.set idx
          { dir with last_accessed := 9, rank := dir.rank + 1 }) :=
  ⟨by decide,
   (add_spec (Database.mk [⟨"a", 1, 5⟩] false) "b" 7).2.1 (by decide),
   (add_spec (Database.mk [⟨"a", 1, 5⟩] false) "a" 9).1,
   (add_spec (Database.mk [⟨"a", 1, 5⟩] false) "a" 9).2.2
     ⟨⟨"a", 1, 5⟩, List.mem_singleton.mpr rfl, rfl⟩⟩

/-! ### `remove` (C4) -/

/-- C4 counterexample: on a registry whose path occurs twice, `remove`
returns true but a record with the removed path survives, refuting "after
`remove(p)` returns, no record in the registry has path `p`". -/
theorem remove_counterexample :
    ((Database.mk [⟨"a", 1, 0⟩, ⟨"a", 2, 0⟩] false).remove "a").2 = true ∧
    ∃ d ∈ ((Database.mk [⟨"a", 1, 0⟩, ⟨"a", 2, 0⟩] false).remove "a").1.dirs,
      d.path = "a" := by
  constructor
  · rfl
  · refine ⟨⟨"a", 2, 0⟩, ?_, rfl⟩
    have h : ((Database.mk [⟨"a", 1, 0⟩, ⟨"a", 2, 0⟩] false).remove "a").1.dirs
        = [⟨"a", 2, 0⟩] := rfl
    rw [h]
    exact List.mem_singleton.mpr rfl

/-- C4 (amended): `remove` returns true iff a record with the path was
present, sets `modified` iff it removed one, leaves the database untouched
otherwise, and removes exactly the first matching record (up to the
reordering of swap-remove); in particular, when paths are unique no record
with the removed path survives. -/
theorem remove_spec (db : Database) (path : String) :
    ((db.remove path).2 = true ↔ ∃ d ∈ db.dirs, d.path = path) ∧
    ((db.remove path).2 = true → (db.remove path).1.modified = true) ∧
    ((db.remove path).2 = false → (db.remove path).1 = db) ∧
    (∀ idx, db.dirs.findIdx? (fun dir => dir.path == path) = some idx →
      (db.remove path).1.dirs.Perm (db.dirs.take idx ++ db.dirs.drop (idx + 1))) ∧
    ((db.dirs.map Dir.path).Nodup → ∀ d ∈ (db.remove path).1.dirs, d.path ≠ path) := by
  cases hfind : db.dirs.findIdx? (fun dir => dir.path == path) with
  | none =>
    have hnone := List.findIdx?_eq_none_iff.mp hfind
    refine ⟨?_, ?_, ?_, ?_, ?_⟩
    · simp only [Database.remove, hfind]
      constructor
      · intro h; cases h
      · intro ⟨d, hd, hp⟩
        have := hnone d hd
        simp [hp] at this
    · intro h
      simp [Database.remove, hfind] at h
    · intro _
      simp [Database.remove, hfind]
    · intro idx h
      cases h
    · intro _ d hd hp
      have hd' : d ∈ db.dirs := by
        simpa [Database.remove, hfind] using hd
      have := hnone d hd'
      simp [hp] at this
  | some idx =>
    obtain ⟨hlt, hp, hearlier⟩ := List.findIdx?_eq_some_iff_getElem.mp hfind
    have hx : db.dirs[idx]? = some db.dirs[idx] := List.getElem?_eq_getElem hlt
    have hxp : (db.dirs[idx]).path = path := by simpa using hp
    have hperm : (swapRemove db.dirs idx).Perm
        (db.dirs.take idx ++ db.dirs.drop (idx + 1)) := swapRemove_perm_eraseIdx hx
    refine ⟨?_, ?_, ?_, ?_, ?_⟩
    · constructor
      · intro _
        exact ⟨db.dirs[idx], List.getElem_mem hlt, hxp⟩
      · intro _
        simp [Database.remove, hfind]
    · intro _
      simp [Database.remove, hfind]
    · intro h
      simp [Database.remove, hfind] at h
    · intro idx2 h2
      injection h2 with h2
      subst h2
      simpa [Database.remove, hfind] using hperm
    · intro hnd d hd hdp
      have hd2 : d ∈ db.dirs.take idx ++ db.dirs.drop (idx + 1) := by
        refine hperm.mem_iff.mp ?_
        simpa [Database.remove, hfind] using hd
      obtain ⟨hdec, _⟩ := getElem?_decomp hx
      rw [hdec] at hnd
      rw [List.map_append, List.map_cons] at hnd
      obtain ⟨hndA, hndB, hcross⟩ := List.pairwise_append.mp hnd
      rcases List.mem_append.mp hd2 with hdA | hdB
      · have := hcross d.path (List.mem_map_of_mem Dir.path hdA)
          (db.dirs[idx]).path (List.mem_cons_self _ _)
        rw [hdp, hxp] at this
        exact this rfl
      · have hhead := (List.pairwise_cons.mp hndB).1
        have := hhead d.path (List.mem_map_of_mem Dir.path hdB)
        rw [hdp, hxp] at this
        exact this rfl

theorem remove_spec_witness :
    (((Database.mk [⟨"a", 1, 5⟩] false).remove "a").2 = true ↔
      ∃ d ∈ (Database.mk [⟨"a", 1, 5⟩] false).dirs, d.path = "a") ∧
    ((Database.mk [⟨"a", 1, 5⟩] false).dirs.map Dir.path).Nodup ∧
    (∀ d ∈ ((Database.mk [⟨"a", 1, 5⟩] false).remove "a").1.dirs, d.path ≠ "a") :=
  ⟨(remove_spec (Database.mk [⟨"a", 1, 5⟩] false) "a").1,
   by decide,
   (remove_spec (Database.mk [⟨"a", 1, 5⟩] false) "a").2.2.2.2 (by decide)⟩

/-! ### The modified flag under operation sequences (C2) -/

theorem dedupLoop_modified_mono (fuel : ℕ) :
    ∀ db : Database, db.modified = true → (dedupLoop db fuel).modified = true := by
  induction fuel with
  | zero => exact fun _ h => h
  | succ n ih =>
    intro db h
    simp only [dedupLoop]
    split
    · split
      · exact ih _ rfl
      · exact ih _ h
    · exact ih _ h

theorem dedupLoop_id_of_not_modified (fuel : ℕ) :
    ∀ db : Database, (dedupLoop db fuel).modified = false → dedupLoop db fuel = db := by
  induction fuel with
  | zero => exact fun _ _ => rfl
  | succ n ih =>
    intro db h
    have hstep : dedupLoop db (n + 1) = dedupLoop db n ∨
        (dedupLoop db (n + 1)).modified = true := by
      simp only [dedupLoop]
      split
      · split
        · exact Or.inr (dedupLoop_modified_mono n _ rfl)
        · exact Or.inl rfl
      · exact Or.inl rfl
    rcases hstep with hstep | hstep
    · rw [hstep] at h ⊢
      exact ih db h
    · rw [hstep] at h
      cases h

theorem applyOp_unmodified (db : Database) (op : Op)
    (h : (applyOp db op).modified = false) :
    db.modified = false ∧ (applyOp db op).dirs.Perm db.dirs := by
  cases op with
  | add path now =>
    exfalso
    simp [applyOp, Database.add] at h
  | remove path =>
    cases hfind : db.dirs.findIdx? (fun dir => dir.path == path) with
    | some idx =>
      exfalso
      simp [applyOp, Database.remove, hfind] at h
    | none =>
      constructor
      · simpa [applyOp, Database.remove, hfind] using h
      · simp [applyOp, Database.remove, hfind]
  | dedup =>
    have h1 : (dedupLoop ⟨db.dirs.insertionSort dirLE, db.modified⟩
        ((db.dirs.insertionSort dirLE).length - 1)).modified = false := by
      simpa [applyOp, Database.dedup] using h
    have h2 := dedupLoop_id_of_not_modified _ _ h1
    have h3 : db.dedup = ⟨db.dirs.insertionSort dirLE, db.modified⟩ := by
      simpa [Database.dedup] using h2
    constructor
    · rw [h2] at h1
      exact h1
    · have h4 : (applyOp db Op.dedup).dirs = db.dirs.insertionSort dirLE := by
        show (db.dedup).dirs = _
        rw [h3]
      rw [h4]
      exact List.perm_insertionSort dirLE db.dirs
  | age max_age =>
    by_cases hs : (db.dirs.map (fun dir => dir.rank)).sum > max_age
    · exfalso
      simp [applyOp, Database.age, hs] at h
    · constructor
      · simpa [applyOp, Database.age, hs] using h
      · simp [applyOp, Database.age, hs]

/-- C2 (amended): along any sequence of `add`/`remove`/`dedup`/`age`, if
`modified` is false at the end then it was false at the start and the final
records are a permutation of the starting records.  (The converse of the
specified iff fails, and record *order* is not tracked: see the
counterexample.) -/
theorem modified_flag_sound (db : Database) (ops : List Op)
    (h : (applyOps db ops).modified = false) :
    (applyOps db ops).dirs.Perm db.dirs ∧ db.modified = false := by
  induction ops generalizing db with
  | nil => exact ⟨List.Perm.refl _, h⟩
  | cons op rest ih =>
    have hstep : applyOps db (op :: rest) = applyOps (applyOp db op) rest := rfl
    rw [hstep] at h ⊢
    obtain ⟨hperm, hmod⟩ := ih (applyOp db op) h
    obtain ⟨hmod0, hperm0⟩ := applyOp_unmodified db op hmod
    exact ⟨hperm.trans hperm0, hmod0⟩

theorem modified_flag_sound_witness :
    (applyOps (Database.mk [⟨"a", 1, 0⟩] false) [Op.remove "b"]).modified = false ∧
    (applyOps (Database.mk [⟨"a", 1, 0⟩] false) [Op.remove "b"]).dirs.Perm
      (Database.mk [⟨"a", 1, 0⟩] false).dirs ∧
    (Database.mk [⟨"a", 1, 0⟩] false).modified = false :=
  ⟨rfl,
   (modified_flag_sound (Database.mk [⟨"a", 1, 0⟩] false) [Op.remove "b"] rfl).1,
   (modified_flag_sound (Database.mk [⟨"a", 1, 0⟩] false) [Op.remove "b"] rfl).2⟩

/-- C2 counterexample: the specified iff fails in both directions.  Adding
a fresh path and removing it restores the saved state exactly, yet
`modified` is true; and `dedup` on a duplicate-free unsorted registry
re-sorts the sequence of records — so the state differs from the saved
one — without setting `modified`. -/
theorem modified_iff_counterexample :
    ((applyOps (Database.mk [] false) [Op.add "a" 0, Op.remove "a"]).modified = true ∧
      (applyOps (Database.mk [] false) [Op.add "a" 0, Op.remove "a"]).dirs =
        (Database.mk [] false).dirs) ∧
    ((applyOps (Database.mk [⟨"b", 1, 0⟩, ⟨"a", 1, 0⟩] false) [Op.dedup]).modified = false ∧
      (applyOps (Database.mk [⟨"b", 1, 0⟩, ⟨"a", 1, 0⟩] false) [Op.dedup]).dirs ≠
        (Database.mk [⟨"b", 1, 0⟩, ⟨"a", 1, 0⟩] false).dirs) := by
  have hba : ¬ dirLE (⟨"b", 1, 0⟩ : Dir) ⟨"a", 1, 0⟩ := by
    show ¬ (("b" : String) ≤ "a")
    rw [String.le_iff_toList_le]
    decide
  have hsort : ([⟨"b", 1, 0⟩, ⟨"a", 1, 0⟩] : List Dir).insertionSort dirLE
      = [⟨"a", 1, 0⟩, ⟨"b", 1, 0⟩] := by
    simp [List.insertionSort, List.orderedInsert, hba]
  have hdedup : (Database.mk [⟨"b", 1, 0⟩, ⟨"a", 1, 0⟩] false).dedup
      = Database.mk [⟨"a", 1, 0⟩, ⟨"b", 1, 0⟩] false := by
    simp only [Database.dedup, hsort]
    rfl
  refine ⟨⟨rfl, rfl⟩, ?_, ?_⟩
  · show ((Database.mk [⟨"b", 1, 0⟩, ⟨"a", 1, 0⟩] false).dedup).modified = false
    rw [hdedup]
  · show ((Database.mk [⟨"b", 1, 0⟩, ⟨"a", 1, 0⟩] false).dedup).dirs ≠ _
    rw [hdedup]
    intro hcontra
    have h1 : (⟨"a", 1, 0⟩ : Dir) = ⟨"b", 1, 0⟩ := by injection hcontra
    have h2 : ("a" : String) = "b" := congrArg Dir.path h1
    exact absurd h2 (by decide)


/-! ### `age` (C5) -/

theorem ageLoop_perm (factor : ℚ) :
    ∀ (n : ℕ) (dirs : List Dir), n ≤ dirs.length →
      (ageLoop factor dirs n).Perm
        (((dirs.take n).map (scaleDir factor)).filter ageKeep ++ dirs.drop n) := by
  intro n
  induction n with
  | zero =>
    intro dirs _
    simp [ageLoop]
  | succ n ih =>
    intro dirs hlen
    obtain ⟨A, x, B, hAB, hA⟩ : ∃ A x B, dirs = A ++ x :: B ∧ A.length = n := by
      have hlt : n < dirs.length := hlen
      have hx : dirs[n]? = some dirs[n] := List.getElem?_eq_getElem hlt
      obtain ⟨hdec, hlenT⟩ := getElem?_decomp hx
      exact ⟨dirs.take n, dirs[n], dirs.drop (n + 1), hdec, hlenT⟩
    subst hAB
    have hxg : (A ++ x :: B)[n]? = some x := by
      rw [← hA, List.getElem?_append_right (le_refl A.length)]
      simp
    have hset : (A ++ x :: B).set n (scaleDir factor x) = A ++ scaleDir factor x :: B := by
      rw [← hA]
      exact set_append_length _ _ _ _
    have htake : (A ++ x :: B).take (n + 1) = A ++ [x] := by
      rw [← hA, List.take_append 1]
      simp
    have hdrop : (A ++ x :: B).drop (n + 1) = B := by
      rw [← hA, List.drop_append 1]
      simp
    simp only [ageLoop, hxg]
    rw [htake, hdrop, List.map_append, List.filter_append]
    by_cases hk : (scaleDir factor x).rank < 1
    · rw [if_pos hk]
      have hkeep : ([x].map (scaleDir factor)).filter ageKeep = [] := by
        simp [ageKeep, hk]
      rw [hkeep, List.append_nil]
      have hsw : swapRemove ((A ++ x :: B).set n (scaleDir factor x)) n
          = A ++ tailSwap (scaleDir factor x) B := by
        rw [hset, ← hA]
        exact swapRemove_append_cons _ _ _
      rw [hsw]
      have hlen2 : n ≤ (A ++ tailSwap (scaleDir factor x) B).length := by
        rw [List.length_append, ← hA]
        exact Nat.le_add_right _ _
      have hrec := ih (A ++ tailSwap (scaleDir factor x) B) hlen2
      rw [List.take_left' hA, List.drop_left' hA] at hrec
      exact hrec.trans (List.Perm.append_left _ (tailSwap_perm _ _))
    · rw [if_neg hk]
      have hkeep : ([x].map (scaleDir factor)).filter ageKeep = [scaleDir factor x] := by
        simp [ageKeep, hk]
      rw [hkeep]
      rw [hset]
      have hlen2 : n ≤ (A ++ scaleDir factor x :: B).length := by
        rw [List.length_append, ← hA]
        exact Nat.le_add_right _ _
      have hrec := ih (A ++ scaleDir factor x :: B) hlen2
      rw [List.take_left' hA, List.drop_left' hA] at hrec
      rw [List.append_assoc, List.singleton_append]
      exact hrec

theorem totalRankSum_filter_le (l : List Dir) (q : Dir → Bool)
    (h : ∀ d ∈ l, 0 ≤ d.rank) : totalRankSum (l.filter q) ≤ totalRankSum l := by
  induction l with
  | nil => simp [totalRankSum]
  | cons x xs ih =>
    have hx := h x (List.mem_cons_self x xs)
    have ihx := ih (fun d hd => h d (List.mem_cons_of_mem x hd))
    by_cases hq : q x
    · simp only [totalRankSum, List.filter_cons, hq, if_true, List.map_cons, List.sum_cons]
      simp only [totalRankSum] at ihx
      linarith
    · simp only [totalRankSum, List.filter_cons, hq, if_false, List.map_cons, List.sum_cons,
        Bool.false_eq_true]
      simp only [totalRankSum] at ihx
      linarith

theorem totalRankSum_map_scale (l : List Dir) (factor : ℚ) :
    totalRankSum (l.map (scaleDir factor)) = totalRankSum l * factor := by
  unfold totalRankSum
  rw [List.map_map]
  have h : (Dir.rank ∘ scaleDir factor) = fun d => Dir.rank d * factor := rfl
  rw [h, List.sum_map_mul_right]

theorem age_noop (db : Database) (M : ℚ) (h : totalRankSum db.dirs ≤ M) :
    db.age M = db := by
  have hsum : (db.dirs.map (fun dir => dir.rank)).sum = totalRankSum db.dirs := rfl
  simp only [Database.age, hsum]
  rw [if_neg]
  exact not_lt.mpr h

theorem age_fired (db : Database) (M : ℚ) (h : M < totalRankSum db.dirs) :
    db.age M =
      ⟨ageLoop (0.9 * M / totalRankSum db.dirs) db.dirs db.dirs.length, true⟩ := by
  have hsum : (db.dirs.map (fun dir => dir.rank)).sum = totalRankSum db.dirs := rfl
  simp only [Database.age, hsum]
  rw [if_pos]
  exact h

/-- C5: with the spec's forbidden inputs excluded (rank values, hence also
`max_age`, are non-negative: Data Model §3), `age(M)` is the identity when
the rank sum `S` is at most `M`; otherwise it sets `modified`, its result
is exactly the records scaled by `0.9 * M / S` with those below rank 1
dropped (up to swap-remove reordering), the remaining rank sum is at most
`0.9 * M`, and every survivor has rank at least 1. -/
theorem age_spec (db : Database) (M : ℚ) (hM : 0 ≤ M)
    (hranks : ∀ d ∈ db.dirs, 0 ≤ d.rank) :
    (totalRankSum db.dirs ≤ M → db.age M = db) ∧
    (M < totalRankSum db.dirs →
      (db.age M).modified = true ∧
      (db.age M).dirs.Perm
        ((db.dirs.map (scaleDir (0.9 * M / totalRankSum db.dirs))).filter ageKeep) ∧
      totalRankSum (db.age M).dirs ≤ 0.9 * M ∧
      (∀ d ∈ (db.age M).dirs, 1 ≤ d.rank)) := by
  constructor
  · exact age_noop db M
  · intro hgt
    have hS : 0 < totalRankSum db.dirs := lt_of_le_of_lt hM hgt
    have hSne : totalRankSum db.dirs ≠ 0 := ne_of_gt hS
    have hfired := age_fired db M hgt
    have hf0 : 0 ≤ 0.9 * M / totalRankSum db.dirs := by
      apply div_nonneg
      · have h9 : (0 : ℚ) ≤ 0.9 := by norm_num
        exact mul_nonneg h9 hM
      · exact hS.le
    have hperm : (db.age M).dirs.Perm
        ((db.dirs.map (scaleDir (0.9 * M / totalRankSum db.dirs))).filter ageKeep) := by
      rw [hfired]
      have hrec := ageLoop_perm (0.9 * M / totalRankSum db.dirs) db.dirs.length db.dirs
        (le_refl _)
      simpa using hrec
    refine ⟨by rw [hfired], hperm, ?_, ?_⟩
    · have h1 : totalRankSum (db.age M).dirs
          = totalRankSum ((db.dirs.map (scaleDir (0.9 * M / totalRankSum db.dirs))).filter
              ageKeep) := by
        unfold totalRankSum
        exact (hperm.map Dir.rank).sum_eq
      have h2 : totalRankSum ((db.dirs.map (scaleDir (0.9 * M / totalRankSum db.dirs))).filter
            ageKeep)
          ≤ totalRankSum (db.dirs.map (scaleDir (0.9 * M / totalRankSum db.dirs))) := by
        apply totalRankSum_filter_le
        intro d hd
        obtain ⟨d0, hd0, rfl⟩ := List.mem_map.mp hd
        have h0 : 0 ≤ d0.rank := hranks d0 hd0
        simpa [scaleDir] using mul_nonneg h0 hf0
      have h3 : totalRankSum (db.dirs.map (scaleDir (0.9 * M / totalRankSum db.dirs)))
          = totalRankSum db.dirs * (0.9 * M / totalRankSum db.dirs) :=
        totalRankSum_map_scale _ _
      have h4 : totalRankSum db.dirs * (0.9 * M / totalRankSum db.dirs) = 0.9 * M := by
        rw [mul_comm]
        exact div_mul_cancel₀ _ hSne
      rw [h1]
      rw [h3, h4] at h2
      exact h2
    · intro d hd
      have hd2 := hperm.mem_iff.mp hd
      have hkeep := (List.mem_filter.mp hd2).2
      have hnot : ¬ d.rank < 1 := by simpa [ageKeep] using hkeep
      exact not_lt.mp hnot

theorem age_spec_witness :
    (0 : ℚ) ≤ 1 ∧ (∀ d ∈ (Database.mk [⟨"a", 2, 0⟩] false).dirs, 0 ≤ d.rank) ∧
    ((Database.mk [⟨"a", 2, 0⟩] false).age 1).modified = true ∧
    (∀ d ∈ ((Database.mk [⟨"a", 2, 0⟩] false).age 1).dirs, 1 ≤ d.rank) := by
  have hranks : ∀ d ∈ (Database.mk [⟨"a", 2, 0⟩] false).dirs, 0 ≤ d.rank := by
    intro d hd
    rw [List.mem_singleton] at hd
    subst hd
    exact zero_le_two
  have hgt : (1 : ℚ) < totalRankSum (Database.mk [⟨"a", 2, 0⟩] false).dirs := by
    simp [totalRankSum]
  exact ⟨zero_le_one, hranks,
    ((age_spec (Database.mk [⟨"a", 2, 0⟩] false) 1 zero_le_one hranks).2 hgt).1,
    ((age_spec (Database.mk [⟨"a", 2, 0⟩] false) 1 zero_le_one hranks).2 hgt).2.2.2⟩

/-! ### `dedup` machinery (C3, C7) -/

theorem dedup_merge_eq (A : List Dir) (next curr : Dir) (R : List Dir) (merged : Dir) :
    swapRemove ((A ++ next :: curr :: R).set A.length merged) (A.length + 1) =
      (A ++ [merged]) ++ tailSwap curr R := by
  rw [set_append_length]
  have h1 : A ++ merged :: curr :: R = (A ++ [merged]) ++ curr :: R := by simp
  rw [h1]
  have h2 : (A ++ [merged]).length = A.length + 1 := by simp
  rw [← h2, swapRemove_append_cons]

theorem getElem?_decomp₂ {l : List Dir} {n : ℕ} {x y : Dir}
    (hx : l[n]? = some x) (hy : l[n + 1]? = some y) :
    l = l.take n ++ x :: y :: l.drop (n + 2) ∧ (l.take n).length = n := by
  obtain ⟨hdec, hlen⟩ := getElem?_decomp hx
  obtain ⟨hlt, hyy⟩ := List.getElem?_eq_some.mp hy
  have h2 : l.drop (n + 1) = y :: l.drop (n + 2) := by
    rw [List.drop_eq_getElem_cons hlt, hyy]
  constructor
  · conv_lhs => rw [hdec, h2]
  · exact hlen

theorem dedupLoop_merge_step {state : Database} {idx : ℕ} {curr next : Dir}
    (hcurr : state.dirs[idx + 1]? = some curr) (hnext : state.dirs[idx]? = some next)
    (hpath : (next.path == curr.path) = true) :
    dedupLoop state (idx + 1) =
      dedupLoop ⟨swapRemove (state.dirs.set idx (mergeDirs next curr)) (idx + 1), true⟩
        idx := by
  simp only [dedupLoop, hcurr, hnext, hpath, if_true]

theorem swapRemove_set_lower {l : List Dir} {idx : ℕ} {curr next : Dir}
    (hcurr : l[idx + 1]? = some curr) (hnext : l[idx]? = some next) (merged : Dir) :
    (swapRemove (l.set idx merged) (idx + 1))[idx]? = some merged := by
  obtain ⟨A, B, hAB, hA⟩ : ∃ A B, l = A ++ next :: curr :: B ∧ A.length = idx :=
    ⟨l.take idx, l.drop (idx + 2), (getElem?_decomp₂ hnext hcurr).1,
      (getElem?_decomp₂ hnext hcurr).2⟩
  have hnew : swapRemove (l.set idx merged) (idx + 1)
      = (A ++ [merged]) ++ tailSwap curr B := by
    rw [hAB, ← hA]
    exact dedup_merge_eq A next curr B merged
  rw [hnew, ← hA, List.getElem?_append]
  rw [if_pos (by simp)]
  exact List.getElem?_concat_length A merged

theorem dedupLoop_head_path (fuel : ℕ) :
    ∀ db : Database,
      (dedupLoop db fuel).dirs[0]?.map Dir.path = db.dirs[0]?.map Dir.path := by
  induction fuel with
  | zero => exact fun _ => rfl
  | succ n ih =>
    intro db
    cases hc : db.dirs[n + 1]? with
    | none =>
      have e : dedupLoop db (n + 1) = dedupLoop db n := by
        simp only [dedupLoop, hc]
      rw [e]
      exact ih db
    | some curr =>
      cases hn : db.dirs[n]? with
      | none =>
        have e : dedupLoop db (n + 1) = dedupLoop db n := by
          simp only [dedupLoop, hc, hn]
        rw [e]
        exact ih db
      | some next =>
        by_cases hp : (next.path == curr.path) = true
        · rw [dedupLoop_merge_step hc hn hp]
          rw [ih ⟨swapRemove (db.dirs.set n (mergeDirs next curr)) (n + 1), true⟩]
          obtain ⟨A, B, hAB, hA⟩ : ∃ A B, db.dirs = A ++ next :: curr :: B ∧ A.length = n :=
            ⟨db.dirs.take n, db.dirs.drop (n + 2), (getElem?_decomp₂ hn hc).1,
              (getElem?_decomp₂ hn hc).2⟩
          have hnew : swapRemove (db.dirs.set n (mergeDirs next curr)) (n + 1)
              = (A ++ [mergeDirs next curr]) ++ tailSwap curr B := by
            rw [hAB, ← hA]
            exact dedup_merge_eq A next curr B _
          rw [hnew, hAB]
          cases A with
          | nil => simp [mergeDirs]
          | cons a A2 => simp
        · have hpf : (next.path == curr.path) = false := by
            simpa using hp
          have e : dedupLoop db (n + 1) = dedupLoop db n := by
            simp only [dedupLoop, hc, hn, hpf, Bool.false_eq_true, if_false]
          rw [e]
          exact ih db

theorem dedupLoop_invariant {M : Type} (mu : List Dir → M)
    (hperm : ∀ {l1 l2 : List Dir}, l1.Perm l2 → mu l1 = mu l2)
    (hmerge : ∀ (A : List Dir) (next curr : Dir) (R : List Dir), next.path = curr.path →
      mu (A ++ mergeDirs next curr :: R) = mu (A ++ next :: curr :: R)) :
    ∀ (fuel : ℕ) (db : Database), mu (dedupLoop db fuel).dirs = mu db.dirs := by
  intro fuel
  induction fuel with
  | zero => exact fun _ => rfl
  | succ n ih =>
    intro db
    cases hc : db.dirs[n + 1]? with
    | none =>
      have e : dedupLoop db (n + 1) = dedupLoop db n := by
        simp only [dedupLoop, hc]
      rw [e]
      exact ih db
    | some curr =>
      cases hn : db.dirs[n]? with
      | none =>
        have e : dedupLoop db (n + 1) = dedupLoop db n := by
          simp only [dedupLoop, hc, hn]
        rw [e]
        exact ih db
      | some next =>
        by_cases hp : (next.path == curr.path) = true
        · have e : dedupLoop db (n + 1) = dedupLoop
              ⟨swapRemove (db.dirs.set n (mergeDirs next curr)) (n + 1), true⟩ n := by
            simp only [dedupLoop, hc, hn, hp, if_true]
          obtain ⟨A, B, hAB, hA⟩ : ∃ A B, db.dirs = A ++ next :: curr :: B ∧ A.length = n :=
            ⟨db.dirs.take n, db.dirs.drop (n + 2), (getElem?_decomp₂ hn hc).1,
              (getElem?_decomp₂ hn hc).2⟩
          have hnew : swapRemove (db.dirs.set n (mergeDirs next curr)) (n + 1)
              = (A ++ [mergeDirs next curr]) ++ tailSwap curr B := by
            rw [hAB, ← hA]
            exact dedup_merge_eq A next curr B _
          rw [e, hnew, ih ⟨(A ++ [mergeDirs next curr]) ++ tailSwap curr B, true⟩]
          have hp' : next.path = curr.path := by simpa using hp
          have s1 : mu ((A ++ [mergeDirs next curr]) ++ tailSwap curr B)
              = mu ((A ++ [mergeDirs next curr]) ++ B) :=
            hperm (List.Perm.append_left _ (tailSwap_perm _ _))
          have s2 : (A ++ [mergeDirs next curr]) ++ B = A ++ mergeDirs next curr :: B := by
            simp
          rw [s1, s2, hmerge A next curr B hp', hAB]
        · have hpf : (next.path == curr.path) = false := by
            simpa using hp
          have e : dedupLoop db (n + 1) = dedupLoop db n := by
            simp only [dedupLoop, hc, hn, hpf, Bool.false_eq_true, if_false]
          rw [e]
          exact ih db

theorem dedupLoop_totalRankSum (fuel : ℕ) (db : Database) :
    totalRankSum (dedupLoop db fuel).dirs = totalRankSum db.dirs := by
  refine dedupLoop_invariant totalRankSum ?_ ?_ fuel db
  · intro l1 l2 h
    unfold totalRankSum
    exact (h.map Dir.rank).sum_eq
  · intro A next curr R _
    simp only [totalRankSum, List.map_append, List.sum_append, List.map_cons, List.sum_cons,
      mergeDirs]
    ring

theorem dedupLoop_groupRankSum (p : String) (fuel : ℕ) (db : Database) :
    groupRankSum p (dedupLoop db fuel).dirs = groupRankSum p db.dirs := by
  refine dedupLoop_invariant (groupRankSum p) ?_ ?_ fuel db
  · intro l1 l2 h
    unfold groupRankSum groupOf
    exact ((h.filter (fun dir => dir.path == p)).map Dir.rank).sum_eq
  · intro A next curr R hnc
    have hmp : (mergeDirs next curr).path = next.path := rfl
    by_cases hpp : (next.path == p) = true
    · have hcp : (curr.path == p) = true := by
        rw [← hnc]
        exact hpp
      have hmerged : ((mergeDirs next curr).path == p) = true := by
        rw [hmp]
        exact hpp
      simp only [groupRankSum, groupOf, List.filter_append, List.filter_cons, hpp, hcp,
        hmerged, if_true, List.map_append, List.sum_append, List.map_cons, List.sum_cons,
        mergeDirs]
      ring
    · have hppf : (next.path == p) = false := by simpa using hpp
      have hcpf : (curr.path == p) = false := by
        rw [← hnc]
        exact hppf
      have hmf : ((mergeDirs next curr).path == p) = false := by
        rw [hmp]
        exact hppf
      simp only [groupRankSum, groupOf, List.filter_append, List.filter_cons, hppf, hcpf,
        hmf, Bool.false_eq_true, if_false]

theorem dedupLoop_groupLastMax (p : String) (fuel : ℕ) (db : Database) :
    groupLastMax p (dedupLoop db fuel).dirs = groupLastMax p db.dirs := by
  refine dedupLoop_invariant (groupLastMax p) ?_ ?_ fuel db
  · intro l1 l2 h
    unfold groupLastMax groupOf
    haveI hlcomm : LeftCommutative (max : ℕ → ℕ → ℕ) := ⟨fun a b c => max_left_comm a b c⟩
    exact @List.Perm.foldr_eq ℕ ℕ max _ _ hlcomm
      ((h.filter (fun dir => dir.path == p)).map Dir.last_accessed) 0
  · intro A next curr R hnc
    by_cases hpp : (next.path == p) = true
    · have hcp : (curr.path == p) = true := by
        rw [← hnc]
        exact hpp
      have hmerged : ((mergeDirs next curr).path == p) = true := hpp
      simp only [groupLastMax, groupOf, List.filter_append, List.filter_cons, hpp, hcp,
        hmerged, if_true, List.map_append, List.foldr_append, List.map_cons, List.foldr_cons,
        mergeDirs]
      exact congrArg (fun z => List.foldr max z (A.filter (fun dir => dir.path == p)
        |>.map Dir.last_accessed)) (max_assoc _ _ _)
    · have hppf : (next.path == p) = false := by simpa using hpp
      have hcpf : (curr.path == p) = false := by
        rw [← hnc]
        exact hppf
      have hmf : ((mergeDirs next curr).path == p) = false := hppf
      simp only [groupLastMax, groupOf, List.filter_append, List.filter_cons, hppf, hcpf,
        hmf, Bool.false_eq_true, if_false]

theorem dedupLoop_id_of_nodup (fuel : ℕ) :
    ∀ db : Database, (db.dirs.map Dir.path).Nodup → dedupLoop db fuel = db := by
  induction fuel with
  | zero => exact fun _ _ => rfl
  | succ n ih =>
    intro db hnd
    cases hc : db.dirs[n + 1]? with
    | none =>
      have e : dedupLoop db (n + 1) = dedupLoop db n := by
        simp only [dedupLoop, hc]
      rw [e]
      exact ih db hnd
    | some curr =>
      cases hn : db.dirs[n]? with
      | none =>
        have e : dedupLoop db (n + 1) = dedupLoop db n := by
          simp only [dedupLoop, hc, hn]
        rw [e]
        exact ih db hnd
      | some next =>
        obtain ⟨hlt1, he1⟩ := List.getElem?_eq_some.mp hc
        obtain ⟨hlt0, he0⟩ := List.getElem?_eq_some.mp hn
        have hmlt1 : n + 1 < (db.dirs.map Dir.path).length := by
          rw [List.length_map]
          exact hlt1
        have hmlt0 : n < (db.dirs.map Dir.path).length := by
          rw [List.length_map]
          exact hlt0
        have hne2 : (db.dirs.map Dir.path)[n] ≠ (db.dirs.map Dir.path)[n + 1] := by
          intro hcontra
          have := (List.Nodup.getElem_inj_iff hnd).mp hcontra
          omega
        have hpf : (next.path == curr.path) = false := by
          have hgn : (db.dirs.map Dir.path)[n] = next.path := by
            rw [List.getElem_map]
            rw [he0]
          have hgc : (db.dirs.map Dir.path)[n + 1] = curr.path := by
            rw [List.getElem_map]
            rw [he1]
          rw [hgn, hgc] at hne2
          simpa using hne2
        have e : dedupLoop db (n + 1) = dedupLoop db n := by
          simp only [dedupLoop, hc, hn, hpf, Bool.false_eq_true, if_false]
        rw [e]
        exact ih db hnd

theorem dedupLoop_nodup_aux (fuel : ℕ) :
    ∀ db : Database, fuel + 1 ≤ db.dirs.length →
      ((db.dirs.take (fuel + 1)).map Dir.path).Sorted (· ≤ ·) →
      (∀ d ∈ db.dirs.drop (fuel + 1), ∀ e ∈ db.dirs.take (fuel + 1), e.path < d.path) →
      ((db.dirs.drop (fuel + 1)).map Dir.path).Nodup →
      ((dedupLoop db fuel).dirs.map Dir.path).Nodup := by
  induction fuel with
  | zero =>
    intro db _ _ hgt hnd
    show ((db.dirs).map Dir.path).Nodup
    cases hdirs : db.dirs with
    | nil => simp
    | cons d0 rest =>
      rw [hdirs] at hgt hnd
      rw [List.map_cons, List.nodup_cons]
      constructor
      · intro hmem
        obtain ⟨d, hd, hdp⟩ := List.mem_map.mp hmem
        have hlt := hgt d (by simpa using hd) d0 (by simp)
        rw [hdp] at hlt
        exact lt_irrefl _ hlt
      · simpa using hnd
  | succ n ih =>
    intro db hlen hsort hgt hnd
    have hlt1 : n + 1 < db.dirs.length := hlen
    have hlt0 : n < db.dirs.length := Nat.lt_of_succ_lt hlt1
    have hc : db.dirs[n + 1]? = some db.dirs[n + 1] := List.getElem?_eq_getElem hlt1
    have hn : db.dirs[n]? = some db.dirs[n] := List.getElem?_eq_getElem hlt0
    obtain ⟨A, nx, cr, B, hAB, hA⟩ :
        ∃ A nx cr B, db.dirs = A ++ nx :: cr :: B ∧ A.length = n :=
      ⟨db.dirs.take n, db.dirs[n], db.dirs[n + 1], db.dirs.drop (n + 2),
        (getElem?_decomp₂ hn hc).1, (getElem?_decomp₂ hn hc).2⟩
    have hn' : db.dirs[n]? = some nx := by
      rw [hAB, ← hA, List.getElem?_append_right (le_refl A.length)]
      simp
    have hc' : db.dirs[n + 1]? = some cr := by
      rw [hAB, ← hA, List.getElem?_append_right (Nat.le_succ_of_le (le_refl A.length))]
      simp
    have htake1 : db.dirs.take (n + 1) = A ++ [nx] := by
      rw [hAB, ← hA, List.take_append 1]
      simp
    have htake2 : db.dirs.take (n + 2) = A ++ [nx, cr] := by
      rw [hAB, ← hA, List.take_append 2]
      simp
    have hdrop1 : db.dirs.drop (n + 1) = cr :: B := by
      rw [hAB, ← hA, List.drop_append 1]
      simp
    have hdrop2 : db.dirs.drop (n + 2) = B := by
      rw [hAB, ← hA, List.drop_append 2]
      simp
    rw [htake2] at hsort
    rw [hdrop2, htake2] at hgt
    rw [hdrop2] at hnd
    have hsortAB : ((A.map Dir.path) ++ [nx.path, cr.path]).Sorted (· ≤ ·) := by
      simpa [List.map_append] using hsort
    obtain ⟨hsA, hsNC, hcross⟩ := List.pairwise_append.mp hsortAB
    have hsort1 : ((db.dirs.take (n + 1)).map Dir.path).Sorted (· ≤ ·) := by
      rw [htake1]
      have hsub : List.Sublist ((A ++ [nx]).map Dir.path) ((A ++ [nx, cr]).map Dir.path) := by
        simp only [List.map_append, List.map_cons, List.map_nil]
        exact List.Sublist.append_left
          (List.Sublist.cons₂ _ (List.nil_sublist _)) _
      exact List.Pairwise.sublist hsub (by simpa [List.map_append] using hsort)
    by_cases hpq : (nx.path == cr.path) = true
    · -- merge step
      have e1 : dedupLoop db (n + 1) = dedupLoop
          ⟨swapRemove (db.dirs.set n (mergeDirs nx cr)) (n + 1), true⟩ n := by
        simp only [dedupLoop, hc', hn', hpq, if_true]
      have e2 : swapRemove (db.dirs.set n (mergeDirs nx cr)) (n + 1)
          = (A ++ [mergeDirs nx cr]) ++ tailSwap cr B := by
        rw [hAB, ← hA]
        exact dedup_merge_eq A nx cr B _
      rw [e1, e2]
      have hlenAm : (A ++ [mergeDirs nx cr]).length = n + 1 := by
        simp [hA]
      have hTlen : (tailSwap cr B).length = B.length := (tailSwap_perm cr B).length_eq
      apply ih ⟨(A ++ [mergeDirs nx cr]) ++ tailSwap cr B, true⟩
      · show n + 1 ≤ ((A ++ [mergeDirs nx cr]) ++ tailSwap cr B).length
        rw [List.length_append, hlenAm]
        exact Nat.le_add_right _ _
      · show ((((A ++ [mergeDirs nx cr]) ++ tailSwap cr B).take (n + 1)).map Dir.path).Sorted
          (· ≤ ·)
        rw [List.take_left' hlenAm]
        have hpaths : (A ++ [mergeDirs nx cr]).map Dir.path = (A ++ [nx]).map Dir.path := by
          simp [mergeDirs]
        rw [hpaths, ← htake1]
        exact hsort1
      · show ∀ d ∈ ((A ++ [mergeDirs nx cr]) ++ tailSwap cr B).drop (n + 1),
          ∀ e ∈ ((A ++ [mergeDirs nx cr]) ++ tailSwap cr B).take (n + 1), e.path < d.path
        rw [List.take_left' hlenAm, List.drop_left' hlenAm]
        intro d hd e he
        have hdB : d ∈ B := (tailSwap_perm cr B).mem_iff.mp hd
        rcases List.mem_append.mp he with heA | heM
        · exact hgt d hdB e (List.mem_append_left _ heA)
        · have he2 : e = mergeDirs nx cr := by simpa using heM
          have hnxmem : nx ∈ A ++ [nx, cr] := by simp
          have hlt2 := hgt d hdB nx hnxmem
          rw [he2]
          exact hlt2
      · show ((((A ++ [mergeDirs nx cr]) ++ tailSwap cr B).drop (n + 1)).map Dir.path).Nodup
        rw [List.drop_left' hlenAm]
        exact (((tailSwap_perm cr B).map Dir.path).symm).nodup hnd
    · -- skip step
      have hpf : (nx.path == cr.path) = false := by
        simpa using hpq
      have e : dedupLoop db (n + 1) = dedupLoop db n := by
        simp only [dedupLoop, hc', hn', hpf, Bool.false_eq_true, if_false]
      rw [e]
      have hnxcr : nx.path < cr.path := by
        have hle : nx.path ≤ cr.path := (List.pairwise_cons.mp hsNC).1 cr.path (by simp)
        have hne2 : nx.path ≠ cr.path := by simpa using hpf
        exact lt_of_le_of_ne hle hne2
      have hAle : ∀ e ∈ A, e.path ≤ nx.path := by
        intro e heA
        exact hcross e.path (List.mem_map_of_mem Dir.path heA) nx.path (by simp)
      apply ih db
      · exact Nat.le_of_succ_le hlen
      · exact hsort1
      · rw [hdrop1, htake1]
        intro d hd e he
        rcases List.mem_cons.mp hd with rfl | hdB
        · rcases List.mem_append.mp he with heA | heN
          · exact lt_of_le_of_lt (hAle e heA) hnxcr
          · have he2 : e = nx := by simpa using heN
            rw [he2]
            exact hnxcr
        · have heorig : e ∈ A ++ [nx, cr] := by
            rcases List.mem_append.mp he with heA | heN
            · exact List.mem_append_left _ heA
            · have he2 : e = nx := by simpa using heN
              rw [he2]
              simp
          exact hgt d hdB e heorig
      · rw [hdrop1, List.map_cons, List.nodup_cons]
        constructor
        · intro hmem
          obtain ⟨d, hdB, hdp⟩ := List.mem_map.mp hmem
          have hcrmem : cr ∈ A ++ [nx, cr] := by simp
          have hlt2 := hgt d hdB cr hcrmem
          rw [hdp] at hlt2
          exact lt_irrefl _ hlt2
        · exact hnd

theorem dedup_def (db : Database) :
    db.dedup = dedupLoop ⟨db.dirs.insertionSort dirLE, db.modified⟩
      ((db.dirs.insertionSort dirLE).length - 1) := rfl

theorem dedup_nodup (db : Database) : ((db.dedup).dirs.map Dir.path).Nodup := by
  rw [dedup_def]
  have hsorted : (db.dirs.insertionSort dirLE).Sorted dirLE :=
    List.sorted_insertionSort dirLE db.dirs
  cases hlen : (db.dirs.insertionSort dirLE).length with
  | zero =>
    have hnil : db.dirs.insertionSort dirLE = [] := List.length_eq_zero.mp hlen
    rw [hnil]
    simp [dedupLoop]
  | succ m =>
    rw [Nat.add_sub_cancel]
    have htake : (db.dirs.insertionSort dirLE).take (m + 1) = db.dirs.insertionSort dirLE :=
      List.take_of_length_le (by rw [hlen])
    have hdropnil : (db.dirs.insertionSort dirLE).drop (m + 1) = [] :=
      List.drop_eq_nil_of_le (by rw [hlen])
    apply dedupLoop_nodup_aux m ⟨db.dirs.insertionSort dirLE, db.modified⟩
    · show m + 1 ≤ (db.dirs.insertionSort dirLE).length
      rw [hlen]
    · show (((db.dirs.insertionSort dirLE).take (m + 1)).map Dir.path).Sorted (· ≤ ·)
      rw [htake]
      exact List.pairwise_map.mpr hsorted
    · show ∀ d ∈ (db.dirs.insertionSort dirLE).drop (m + 1),
        ∀ e ∈ (db.dirs.insertionSort dirLE).take (m + 1), e.path < d.path
      rw [hdropnil]
      intro d hd
      cases hd
    · show (((db.dirs.insertionSort dirLE).drop (m + 1)).map Dir.path).Nodup
      rw [hdropnil]
      simp

theorem groupOf_eq_singleton {l : List Dir} (hnd : (l.map Dir.path).Nodup) {d : Dir}
    (hd : d ∈ l) : groupOf d.path l = [d] := by
  induction l with
  | nil => cases hd
  | cons x xs ih =>
    rw [List.map_cons, List.nodup_cons] at hnd
    obtain ⟨hx, hxs⟩ := hnd
    rcases List.mem_cons.mp hd with rfl | hd2
    · have hempty : groupOf d.path xs = [] := by
        unfold groupOf
        rw [List.filter_eq_nil_iff]
        intro a ha hb
        apply hx
        have hap : a.path = d.path := by simpa using hb
        rw [← hap]
        exact List.mem_map_of_mem Dir.path ha
      unfold groupOf at hempty ⊢
      rw [List.filter_cons]
      simp only [beq_self_eq_true, if_true]
      rw [hempty]
    · have hne : (x.path == d.path) = false := by
        rw [beq_eq_false_iff_ne]
        intro hcontra
        apply hx
        rw [hcontra]
        exact List.mem_map_of_mem Dir.path hd2
      unfold groupOf at ih ⊢
      rw [List.filter_cons, hne]
      simp only [Bool.false_eq_true, if_false]
      exact ih hxs hd2

/-- C7: `dedup` preserves the total rank sum, and each surviving record
carries the rank sum and the maximum last-accessed time of the whole group
of records sharing its path.  The merge tie-break: whenever the loop merges
the adjacent pair at `idx` and `idx + 1` of the sorted list, the surviving
combined record is written at the earlier (lower) index `idx` — it sits at
position `idx` after the step — and the record at `idx + 1` is the one
swap-removed; consequently position `0` of the final sequence carries the
path of the first record after the sort (an upper-index survivor would put
a later group there). -/
theorem dedup_conservation (db : Database) :
    totalRankSum (db.dedup).dirs = totalRankSum db.dirs ∧
    (∀ d ∈ (db.dedup).dirs,
      d.rank = groupRankSum d.path db.dirs ∧
      d.last_accessed = groupLastMax d.path db.dirs) ∧
    (∀ (state : Database) (idx : ℕ) (curr next : Dir),
      state.dirs[idx + 1]? = some curr → state.dirs[idx]? = some next →
      (next.path == curr.path) = true →
      dedupLoop state (idx + 1) =
        dedupLoop ⟨swapRemove (state.dirs.set idx (mergeDirs next curr)) (idx + 1),
          true⟩ idx ∧
      (swapRemove (state.dirs.set idx (mergeDirs next curr)) (idx + 1))[idx]?
        = some (mergeDirs next curr)) ∧
    (db.dedup).dirs[0]?.map Dir.path = (db.dirs.insertionSort dirLE)[0]?.map Dir.path := by
  have hsp : (db.dirs.insertionSort dirLE).Perm db.dirs := List.perm_insertionSort _ _
  refine ⟨?_, ?_, ?_, ?_⟩
  · rw [dedup_def, dedupLoop_totalRankSum]
    show totalRankSum (db.dirs.insertionSort dirLE) = totalRankSum db.dirs
    unfold totalRankSum
    exact (hsp.map Dir.rank).sum_eq
  · intro d hd
    have hnd := dedup_nodup db
    have hsingle : groupOf d.path (db.dedup).dirs = [d] := groupOf_eq_singleton hnd hd
    have hrank_eq : groupRankSum d.path (db.dedup).dirs = d.rank := by
      rw [groupRankSum, hsingle]
      simp
    have hlast_eq : groupLastMax d.path (db.dedup).dirs = d.last_accessed := by
      rw [groupLastMax, hsingle]
      simp
    have hgr : groupRankSum d.path (db.dedup).dirs = groupRankSum d.path db.dirs := by
      rw [dedup_def, dedupLoop_groupRankSum]
      show groupRankSum d.path (db.dirs.insertionSort dirLE) = _
      unfold groupRankSum groupOf
      exact ((hsp.filter (fun dir => dir.path == d.path)).map Dir.rank).sum_eq
    have hgl : groupLastMax d.path (db.dedup).dirs = groupLastMax d.path db.dirs := by
      rw [dedup_def, dedupLoop_groupLastMax]
      show groupLastMax d.path (db.dirs.insertionSort dirLE) = _
      unfold groupLastMax groupOf
      exact @List.Perm.foldr_eq ℕ ℕ max _ _ ⟨fun a b c => max_left_comm a b c⟩
        ((hsp.filter (fun dir => dir.path == d.path)).map Dir.last_accessed) 0
    exact ⟨by rw [← hgr, hrank_eq], by rw [← hgl, hlast_eq]⟩
  · intro state idx curr next hcurr hnext hpath
    exact ⟨dedupLoop_merge_step hcurr hnext hpath,
      swapRemove_set_lower hcurr hnext (mergeDirs next curr)⟩
  · rw [dedup_def]
    exact dedupLoop_head_path ((db.dirs.insertionSort dirLE).length - 1)
      ⟨db.dirs.insertionSort dirLE, db.modified⟩

theorem dedup_conservation_witness :
    totalRankSum ((Database.mk [⟨"a", 1, 2⟩] false).dedup).dirs =
      totalRankSum (Database.mk [⟨"a", 1, 2⟩] false).dirs ∧
    ((⟨"a", 1, 2⟩ : Dir).rank =
        groupRankSum (⟨"a", 1, 2⟩ : Dir).path (Database.mk [⟨"a", 1, 2⟩] false).dirs ∧
      (⟨"a", 1, 2⟩ : Dir).last_accessed =
        groupLastMax (⟨"a", 1, 2⟩ : Dir).path (Database.mk [⟨"a", 1, 2⟩] false).dirs) ∧
    (swapRemove ((Database.mk [⟨"a", 1, 2⟩, ⟨"a", 2, 5⟩, ⟨"b", 1, 7⟩] false).dirs.set 0
        (mergeDirs ⟨"a", 1, 2⟩ ⟨"a", 2, 5⟩)) 1)[0]?
      = some (mergeDirs ⟨"a", 1, 2⟩ ⟨"a", 2, 5⟩) :=
  ⟨(dedup_conservation (Database.mk [⟨"a", 1, 2⟩] false)).1,
   (dedup_conservation (Database.mk [⟨"a", 1, 2⟩] false)).2.1 ⟨"a", 1, 2⟩
     (List.mem_singleton.mpr rfl),
   ((dedup_conservation (Database.mk [⟨"a", 1, 2⟩] false)).2.2.1
     (Database.mk [⟨"a", 1, 2⟩, ⟨"a", 2, 5⟩, ⟨"b", 1, 7⟩] false) 0
     ⟨"a", 2, 5⟩ ⟨"a", 1, 2⟩ rfl rfl rfl).2⟩

/-- C3 (amended): after `dedup` every path occurs at most once, and a
second `dedup` returns the same records up to permutation (it merges
nothing, but its sort can reorder them — equality of sequences fails, see
the counterexample). -/
theorem dedup_idem_perm (db : Database) :
    ((db.dedup).dedup).dirs.Perm (db.dedup).dirs ∧
    ((db.dedup).dirs.map Dir.path).Nodup := by
  have hnd := dedup_nodup db
  refine ⟨?_, hnd⟩
  have hnd2 : (((db.dedup).dirs.insertionSort dirLE).map Dir.path).Nodup :=
    (((List.perm_insertionSort dirLE (db.dedup).dirs).map Dir.path).symm).nodup hnd
  have hloop := dedupLoop_id_of_nodup (((db.dedup).dirs.insertionSort dirLE).length - 1)
    ⟨(db.dedup).dirs.insertionSort dirLE, (db.dedup).modified⟩ hnd2
  rw [dedup_def (db.dedup), hloop]
  exact List.perm_insertionSort _ _

/-- C3 counterexample: `dedup(dedup(R))` differs from `dedup(R)` as a
sequence: the swap-removes of the first `dedup` leave `[a, c, b]`, and the
second `dedup`'s sort reorders it to `[a, b, c]`. -/
theorem dedup_idem_counterexample :
    (((Database.mk [⟨"a", 1, 0⟩, ⟨"a", 2, 0⟩, ⟨"b", 1, 0⟩, ⟨"c", 1, 0⟩]
        false).dedup).dedup).dirs
      ≠ ((Database.mk [⟨"a", 1, 0⟩, ⟨"a", 2, 0⟩, ⟨"b", 1, 0⟩, ⟨"c", 1, 0⟩]
        false).dedup).dirs := by
  have hab : ("a" : String) ≤ "b" := by
    rw [String.le_iff_toList_le]
    decide
  have hac : ("a" : String) ≤ "c" := by
    rw [String.le_iff_toList_le]
    decide
  have hbc : ("b" : String) ≤ "c" := by
    rw [String.le_iff_toList_le]
    decide
  have hsorted : List.Sorted dirLE
      [⟨"a", 1, 0⟩, ⟨"a", 2, 0⟩, ⟨"b", 1, 0⟩, ⟨"c", 1, 0⟩] := by
    refine List.Pairwise.cons ?_ (List.Pairwise.cons ?_ (List.Pairwise.cons ?_
      (List.Pairwise.cons ?_ List.Pairwise.nil)))
    · intro d hd
      simp only [List.mem_cons, List.not_mem_nil, or_false] at hd
      rcases hd with rfl | rfl | rfl
      · exact le_refl ("a" : String)
      · exact hab
      · exact hac
    · intro d hd
      simp only [List.mem_cons, List.not_mem_nil, or_false] at hd
      rcases hd with rfl | rfl
      · exact hab
      · exact hac
    · intro d hd
      simp only [List.mem_cons, List.not_mem_nil, or_false] at hd
      rcases hd with rfl
      exact hbc
    · intro d hd
      cases hd
  have hs1 : (Database.mk [⟨"a", 1, 0⟩, ⟨"a", 2, 0⟩, ⟨"b", 1, 0⟩, ⟨"c", 1, 0⟩] false).dedup
      = dedupLoop ⟨[⟨"a", 1, 0⟩, ⟨"a", 2, 0⟩, ⟨"b", 1, 0⟩, ⟨"c", 1, 0⟩], false⟩ 3 := by
    rw [dedup_def, List.Sorted.insertionSort_eq hsorted]
    rfl
  have hD1 : ((Database.mk [⟨"a", 1, 0⟩, ⟨"a", 2, 0⟩, ⟨"b", 1, 0⟩, ⟨"c", 1, 0⟩]
        false).dedup).dirs
      = [⟨"a", 1 + 2, max 0 0⟩, ⟨"c", 1, 0⟩, ⟨"b", 1, 0⟩] := by
    rw [hs1]
    rfl
  have hcb : ¬ dirLE (⟨"c", 1, 0⟩ : Dir) ⟨"b", 1, 0⟩ := by
    show ¬ (("c" : String) ≤ "b")
    rw [String.le_iff_toList_le]
    decide
  have hab2 : dirLE (⟨"a", 1 + 2, max 0 0⟩ : Dir) ⟨"b", 1, 0⟩ := hab
  have hsort2 : List.insertionSort dirLE [⟨"a", 1 + 2, max 0 0⟩, ⟨"c", 1, 0⟩, ⟨"b", 1, 0⟩]
      = [⟨"a", 1 + 2, max 0 0⟩, ⟨"b", 1, 0⟩, ⟨"c", 1, 0⟩] := by
    simp [List.insertionSort, List.orderedInsert, hcb, hab2]
    exact hab
  have hD2 : (((Database.mk [⟨"a", 1, 0⟩, ⟨"a", 2, 0⟩, ⟨"b", 1, 0⟩, ⟨"c", 1, 0⟩]
        false).dedup).dedup).dirs
      = [⟨"a", 1 + 2, max 0 0⟩, ⟨"b", 1, 0⟩, ⟨"c", 1, 0⟩] := by
    rw [dedup_def ((Database.mk [⟨"a", 1, 0⟩, ⟨"a", 2, 0⟩, ⟨"b", 1, 0⟩, ⟨"c", 1, 0⟩]
      false).dedup), hD1, hsort2]
    rfl
  intro hcontra
  rw [hD2, hD1] at hcontra
  injection hcontra with h0 h1
  injection h1 with h2 h3
  exact absurd (congrArg Dir.path h2) (by decide)
